import Mathlib

/-!
Verification of the d8fmt repository (src/src/d8fmt.py) against its
natural-language specification.

Strings are modelled as `List Char`.  Python's `str.replace` (global,
left-to-right, non-overlapping literal replacement) is embedded as
`replaceAll`; the zone validator `is_zone_free` and the substitution engine
`snap_fmt` are embedded from the source.  The external rendering
collaborator (`datetime.strftime` applied to the canonical instant) is
modelled from the spec, which fixes the canonical instant's rendered
fragments.
-/

namespace D8fmt

/-- Shorthand: the character list of a string literal. -/
def str (s : String) : List Char := s.toList

/-- Boolean prefix test on character lists. -/
def isPre : List Char → List Char → Bool
  | [], _ => true
  | _ :: _, [] => false
  | a :: as, b :: bs => a = b && isPre as bs

/-- Boolean substring test on character lists (Python's `in` on strings). -/
def isSub (p : List Char) : List Char → Bool
  | [] => isPre p []
  | c :: cs => isPre p (c :: cs) || isSub p cs

/-- Fuel-indexed worker for `replaceAll`.  The fuel is always instantiated
with the length of the subject list, which makes the recursion structural
while computing exactly the non-overlapping left-to-right replacement. -/
def replaceAllAux (p r : List Char) : Nat → List Char → List Char
  | _, [] => []
  | 0, s => s
  | fuel + 1, c :: cs =>
    if !p.isEmpty && isPre p (c :: cs) then
      r ++ replaceAllAux p r fuel (List.drop (p.length - 1) cs)
    else
      c :: replaceAllAux p r fuel cs

/-- Python's `str.replace(p, r)` on character lists: every non-overlapping
occurrence of `p` is replaced by `r`, scanning left to right.  (For the
empty pattern Python would interleave `r` everywhere; the table never
contains an empty pattern and this embedding leaves the string unchanged
in that case.) -/
def replaceAll (p r s : List Char) : List Char :=
  replaceAllAux p r s.length s

/-- Error raised by the zone guard (`ValueError` in the source),
carrying which check fired; `badAbbrev` carries the offending
abbreviation, as the source's message does. -/
inductive ZoneError where
  | offsetPattern : ZoneError
  | badAbbrev : List Char → ZoneError
deriving DecidableEq

instance {ε α : Type} [DecidableEq ε] [DecidableEq α] : DecidableEq (Except ε α) := fun x y =>
  match x, y with
  | .error a, .error b =>
    if h : a = b then .isTrue (congrArg Except.error h)
    else .isFalse (fun hc => h (Except.error.inj hc))
  | .ok a, .ok b =>
    if h : a = b then .isTrue (congrArg Except.ok h)
    else .isFalse (fun hc => h (Except.ok.inj hc))
  | .error _, .ok _ => .isFalse (fun hc => Except.noConfusion hc)
  | .ok _, .error _ => .isFalse (fun hc => Except.noConfusion hc)

/-- The regex `" [+-]\d{4}"` matches at the head of `s`: a space, then a
sign, then four (ASCII) digits. -/
def offsetAt : List Char → Bool
  | c0 :: c1 :: c2 :: c3 :: c4 :: c5 :: _ =>
    c0 = ' ' && (c1 = '+' || c1 = '-') && c2.isDigit && c3.isDigit && c4.isDigit && c5.isDigit
  | _ => false

/-- `re.search(" [+-]\d{4}", s)` finds a match somewhere in `s`. -/
def hasTzOffset : List Char → Bool
  | [] => false
  | c :: cs => offsetAt (c :: cs) || hasTzOffset cs

/-- The source's deny-list of time-zone abbreviations, in order. -/
def invalid_timezones : List (List Char) :=
  [str "PST", str "EST", str "CST", str "MST", str "AST", str "HST", str "AKST",
   str "PDT", str "EDT", str "CDT", str "MDT", str "ADT", str "HADT", str "AKDT",
   str "GMT"]

/-- `is_zone_free` from the source: raises (here: returns `.error`) when the
space-anchored `[+-]dddd` offset regex matches or a deny-listed
abbreviation occurs as a substring; otherwise returns `True`. -/
def is_zone_free (fmt : List Char) : Except ZoneError Bool :=
  if hasTzOffset fmt then .error .offsetPattern
  else
    match invalid_timezones.find? (fun tz => isSub tz fmt) with
    | some tz => .error (.badAbbrev tz)
    | none => .ok true

/-- `DATETIME_LOOKUP_TABLE` from the source, as an ordered association
list.  The source is a Python `dict` literal; its duplicate literal key
`"October"` collapses (same value, first position kept), so the iteration
order embedded here is the dict's key insertion order. -/
def DATETIME_LOOKUP_TABLE : List (List Char × List Char) :=
  [(str "{HOUR12}", str "%I"),
   (str "{HOUR24}", str "%H"),
   (str "{DOY}", str "%j"),
   (str "{YEAR2}", str "%y"),
   (str "{YEAR4}", str "%Y"),
   (str "{MONTH}", str "%B"),
   (str "{MONTH3}", str "%b"),
   (str "{MONTH#}", str "%m"),
   (str "{DAY}", str "%A"),
   (str "{DAY3}", str "%a"),
   (str "{DAY#}", str "%d"),
   (str "{HOUR}", str "%I"),
   (str "{MINUTE}", str "%M"),
   (str "{SECOND}", str "%S"),
   (str "{MICROSEC}", str "%f"),
   (str "{AM}", str "%p"),
   (str "{PM}", str "%p"),
   (str "{WOY}", str "%U"),
   (str "{WOYISO}", str "%W"),
   (['{', 'W', 'D', 'A', 'Y', '#', 'I', 'S', 'O', '}'], str "%u"),
   (str "{WDAY#}", str "%w"),
   (str "{TZ}", str "%Z"),
   (str "{UTCOFF}", str "%z"),
   (str "{LOCALE}", str "%x"),
   (str ".000000", str ".%f"),
   (str "2004", str "%Y"),
   (str "305", str "%j"),
   (str "October", str "%B"),
   (str "OCTOBER", str "%B"),
   (str "october", str "%B"),
   (str "Oct", str "%b"),
   (str "OCT", str "%b"),
   (str "oct", str "%b"),
   (str "Sunday", str "%A"),
   (str "SUNDAY", str "%A"),
   (str "sunday", str "%A"),
   (str "SUN", str "%a"),
   (str "Sun", str "%a"),
   (str "sun", str "%a"),
   (str "01", str "%I"),
   (str "04", str "%y"),
   (str "10", str "%m"),
   (str "11", str "%S"),
   (str "12", str "%M"),
   (str "13", str "%H"),
   (str "31", str "%d"),
   (str "44", str "%U"),
   (str "43", str "%W"),
   (str "AM", str "%p"),
   (str "PM", str "%p"),
   (str "am", str "%p"),
   (str "pm", str "%p"),
   (str "0", str "%w"),
   (str "7", str "%u")]

/-- The replacement loop of `snap_fmt`: each `(pattern, directive)` pair of
the table, in table order, is applied as one global replacement to the
whole current string. -/
def applyTable (table : List (List Char × List Char)) (fmt : List Char) : List Char :=
  table.foldl (fun acc kv => replaceAll kv.1 kv.2 acc) fmt

/-- `snap_fmt` with an explicit optional replacement table, as in the
source (`replacments or DATETIME_LOOKUP_TABLE`): validates the input with
`is_zone_free` (propagating its error) and then performs the replacement
loop. -/
def snap_fmt_with (fmt : List Char) (replacments : Option (List (List Char × List Char))) :
    Except ZoneError (List Char) :=
  let replacements := replacments.getD DATETIME_LOOKUP_TABLE
  match is_zone_free fmt with
  | .error e => .error e
  | .ok _ => .ok (applyTable replacements fmt)

/-- `snap_fmt` with the default table. -/
def snap_fmt (fmt : List Char) : Except ZoneError (List Char) :=
  snap_fmt_with fmt none

/-- Modelled from the spec: the rendered value of one `strftime` directive
character at the Canonical Instant 2004-10-31 13:12:11 UTC (a Sunday,
day-of-year 305, week-of-year 44 Sunday-based and 43 Monday-based, hour
01 PM on the 12-hour clock, microsecond 000000).  The rendering collaborator
itself is outside the source (`datetime.strftime`); the spec fixes these
values.  An unrecognized directive is kept literally. -/
def directiveValue (c : Char) : List Char :=
  if c = 'Y' then str "2004" else
  if c = 'y' then str "04" else
  if c = 'm' then str "10" else
  if c = 'd' then str "31" else
  if c = 'H' then str "13" else
  if c = 'I' then str "01" else
  if c = 'M' then str "12" else
  if c = 'S' then str "11" else
  if c = 'B' then str "October" else
  if c = 'b' then str "Oct" else
  if c = 'A' then str "Sunday" else
  if c = 'a' then str "Sun" else
  if c = 'j' then str "305" else
  if c = 'U' then str "44" else
  if c = 'W' then str "43" else
  if c = 'u' then str "7" else
  if c = 'w' then str "0" else
  if c = 'p' then str "PM" else
  if c = 'f' then str "000000" else
  if c = 'Z' then str "UTC" else
  if c = 'z' then str "+0000" else
  if c = 'x' then str "10/31/04" else
  if c = '%' then str "%" else
  ['%', c]

/-- Modelled from the spec: the external rendering collaborator
`render(instant, directiveString)` evaluated at the Canonical Instant.  A
`%` followed by a directive character renders to that directive's value;
every other character is copied literally; a dangling final `%` is kept. -/
def renderCanonical : List Char → List Char
  | [] => []
  | c :: cs =>
    if c = '%' then
      match cs with
      | [] => ['%']
      | d :: rest => directiveValue d ++ renderCanonical rest
    else c :: renderCanonical cs

/-- Index of the leftmost occurrence of `p` in `s`, if any. -/
def firstMatch (p : List Char) : List Char → Option Nat
  | [] => if isPre p [] then some 0 else none
  | c :: cs => if isPre p (c :: cs) then some 0 else (firstMatch p cs).map (fun i => i + 1)

/-- Fuel-indexed worker for `specReplace`. -/
def specReplaceAux (p r : List Char) : Nat → List Char → List Char
  | 0, s => s
  | fuel + 1, s =>
    match firstMatch p s with
    | none => s
    | some i => s.take i ++ r ++ specReplaceAux p r fuel (s.drop (i + p.length))

/-- Follows the spec's words for one table step: a global non-overlapping
literal substring replacement — find the leftmost occurrence of the
pattern, substitute the directive for it, and continue searching after the
substituted directive. -/
def specReplace (p r s : List Char) : List Char :=
  specReplaceAux p r s.length s

/-- Follows the spec's words for the whole engine: each `(pattern,
directive)` pair in table order performs a global replacement across the
entire current state of the string, so replacements accumulate. -/
def specSnap (table : List (List Char × List Char)) (s : List Char) : List Char :=
  table.foldl (fun acc kv => specReplace kv.1 kv.2 acc) s

/-- A directive string is percent-complete: no `%` dangles at the end. -/
def CompleteB : List Char → Bool
  | [] => true
  | c :: cs =>
    if c = '%' then
      match cs with
      | [] => false
      | _ :: rest => CompleteB rest
    else CompleteB cs

/-- The canonical-case fragments of the default table: those literal table
patterns that the Canonical Instant's rendering maps back to themselves. -/
def canonicalFragments : List (List Char) :=
  [str ".000000", str "2004", str "305", str "October", str "Oct", str "Sunday",
   str "Sun", str "01", str "04", str "10", str "11", str "12", str "13",
   str "31", str "44", str "43", str "PM", str "0", str "7"]

/-- Separator characters that occur in no table pattern and are not `%`. -/
def safeSeps : List Char := [' ', '-', ':', ',', '/']

/-- A token of a composed example string: a table fragment or a separator
character. -/
inductive ExTok where
  | frag : List Char → ExTok
  | sep : Char → ExTok
deriving DecidableEq

/-- The text of one token. -/
def tokStr : ExTok → List Char
  | .frag f => f
  | .sep c => [c]

/-- The example string denoted by a token list. -/
def flattenToks : List ExTok → List Char
  | [] => []
  | t :: ts => tokStr t ++ flattenToks ts

def isFragTok : ExTok → Bool
  | .frag _ => true
  | .sep _ => false

/-- Every fragment is canonical-case and every separator is safe. -/
def goodTok (t : ExTok) : Bool :=
  match t with
  | .frag f => decide (f ∈ canonicalFragments)
  | .sep c => decide (c ∈ safeSeps)

/-- No two fragments are adjacent (at least one separator between any two
fragments). -/
def sepSpaced : List ExTok → Bool
  | [] => true
  | [_] => true
  | a :: b :: rest => !(isFragTok a && isFragTok b) && sepSpaced (b :: rest)

/-- Declaratively: `p` begins `s`. -/
def PreP (p s : List Char) : Prop := ∃ t, s = p ++ t

/-- Declaratively: `p` occurs in `s` as a contiguous substring. -/
def SubP (p s : List Char) : Prop := ∃ u v, s = u ++ p ++ v

/-- Declaratively: somewhere in `s` a space is followed by a sign and four
digits — the language of the source's offset regex `" [+-]\d{4}"`. -/
def SpaceOffset (s : List Char) : Prop :=
  ∃ (u : List Char) (sgn d1 d2 d3 d4 : Char) (v : List Char),
    (sgn = '+' ∨ sgn = '-') ∧
    (d1.isDigit ∧ d2.isDigit ∧ d3.isDigit ∧ d4.isDigit) ∧
    s = u ++ ' ' :: sgn :: d1 :: d2 :: d3 :: d4 :: v

/-- Declaratively: somewhere in `s` a sign is immediately followed by four
digits (no space requirement) — the pattern named by the spec's rejection
property. -/
def SignedOffset (s : List Char) : Prop :=
  ∃ (u : List Char) (sgn d1 d2 d3 d4 : Char) (v : List Char),
    (sgn = '+' ∨ sgn = '-') ∧
    (d1.isDigit ∧ d2.isDigit ∧ d3.isDigit ∧ d4.isDigit) ∧
    s = u ++ sgn :: d1 :: d2 :: d3 :: d4 :: v

theorem isPre_iff : ∀ p s : List Char, isPre p s = true ↔ PreP p s
  | [], s => by simp [isPre, PreP]
  | a :: as, [] => by
      simp only [isPre, PreP, List.cons_append, Bool.false_eq_true, false_iff]
      rintro ⟨t, ht⟩
      exact List.cons_ne_nil _ _ ht.symm
  | a :: as, b :: bs => by
      simp only [isPre, PreP, List.cons_append, Bool.and_eq_true, decide_eq_true_eq,
        isPre_iff as bs, List.cons.injEq]
      constructor
      · rintro ⟨rfl, t, rfl⟩
        exact ⟨t, rfl, rfl⟩
      · rintro ⟨t, rfl, rfl⟩
        exact ⟨rfl, t, rfl⟩

theorem isSub_iff : ∀ p s : List Char, isSub p s = true ↔ SubP p s
  | p, [] => by
      simp only [isSub, isPre_iff, PreP, SubP]
      constructor
      · rintro ⟨t, ht⟩
        exact ⟨[], t, ht⟩
      · rintro ⟨u, v, huv⟩
        rcases List.append_eq_nil.mp ((List.append_assoc u p v ▸ huv).symm) with ⟨hu, hpv⟩
        exact ⟨v, by simp [hu, hpv]⟩
  | p, c :: cs => by
      simp only [isSub, Bool.or_eq_true, isPre_iff, isSub_iff p cs]
      constructor
      · rintro (⟨t, ht⟩ | ⟨u, v, rfl⟩)
        · exact ⟨[], t, ht⟩
        · exact ⟨c :: u, v, rfl⟩
      · rintro ⟨u, v, huv⟩
        cases u with
        | nil => exact Or.inl ⟨v, by simpa using huv⟩
        | cons x u' =>
            right
            rcases List.cons_eq_cons.mp huv with ⟨rfl, h⟩
            exact ⟨u', v, h⟩

theorem replaceAllAux_nil (p r : List Char) (f : Nat) : replaceAllAux p r f [] = [] := by
  cases f <;> rfl

/-- The boolean guard of `replaceAllAux`, as a proposition. -/
theorem replaceCond_iff (p s : List Char) :
    (!p.isEmpty && isPre p s) = true ↔ p ≠ [] ∧ PreP p s := by
  simp [isPre_iff, List.isEmpty_iff]

theorem replaceAllAux_fuel (p r : List Char) :
    ∀ f1 : Nat, ∀ s : List Char, s.length ≤ f1 → ∀ f2 : Nat, s.length ≤ f2 →
      replaceAllAux p r f1 s = replaceAllAux p r f2 s := by
  intro f1
  induction f1 with
  | zero =>
      intro s hs f2 _
      have : s = [] := List.length_eq_zero.mp (Nat.le_zero.mp hs)
      subst this
      rw [replaceAllAux_nil, replaceAllAux_nil]
  | succ n ih =>
      intro s hs f2 h2
      cases s with
      | nil => rw [replaceAllAux_nil, replaceAllAux_nil]
      | cons c cs =>
          cases f2 with
          | zero => exact absurd h2 (by simp)
          | succ m =>
              show (if !p.isEmpty && isPre p (c :: cs) then
                      r ++ replaceAllAux p r n (List.drop (p.length - 1) cs)
                    else c :: replaceAllAux p r n cs) =
                   (if !p.isEmpty && isPre p (c :: cs) then
                      r ++ replaceAllAux p r m (List.drop (p.length - 1) cs)
                    else c :: replaceAllAux p r m cs)
              have hcs : cs.length ≤ n := Nat.le_of_succ_le_succ hs
              have hcs2 : cs.length ≤ m := Nat.le_of_succ_le_succ h2
              have hd : (List.drop (p.length - 1) cs).length ≤ cs.length := by
                simp [List.length_drop]
              split
              · rw [ih _ (Nat.le_trans hd hcs) m (Nat.le_trans hd hcs2)]
              · rw [ih _ hcs m hcs2]

theorem replaceAll_nil (p r : List Char) : replaceAll p r [] = [] := rfl

theorem replaceAll_pos {p : List Char} (r : List Char) {c : Char} {cs : List Char}
    (hne : p ≠ []) (hp : PreP p (c :: cs)) :
    replaceAll p r (c :: cs) = r ++ replaceAll p r (List.drop (p.length - 1) cs) := by
  show replaceAllAux p r (cs.length + 1) (c :: cs) = _
  have hcond : (!p.isEmpty && isPre p (c :: cs)) = true := (replaceCond_iff p _).mpr ⟨hne, hp⟩
  show (if !p.isEmpty && isPre p (c :: cs) then
          r ++ replaceAllAux p r cs.length (List.drop (p.length - 1) cs)
        else c :: replaceAllAux p r cs.length cs) = _
  rw [if_pos hcond]
  rw [replaceAllAux_fuel p r cs.length _ (by simp [List.length_drop]) _ (Nat.le_refl _)]
  rfl

theorem replaceAll_neg {p : List Char} (r : List Char) {c : Char} {cs : List Char}
    (h : ¬(p ≠ [] ∧ PreP p (c :: cs))) :
    replaceAll p r (c :: cs) = c :: replaceAll p r cs := by
  have hcond : (!p.isEmpty && isPre p (c :: cs)) = false := by
    cases hb : (!p.isEmpty && isPre p (c :: cs)) with
    | false => rfl
    | true => exact absurd ((replaceCond_iff p _).mp hb) h
  show (if !p.isEmpty && isPre p (c :: cs) then
          r ++ replaceAllAux p r cs.length (List.drop (p.length - 1) cs)
        else c :: replaceAllAux p r cs.length cs) = _
  rw [if_neg (by simp [hcond])]
  rfl

theorem replaceAll_not_sub {p : List Char} (r : List Char) :
    ∀ s : List Char, ¬ SubP p s → replaceAll p r s = s := by
  intro s
  induction s with
  | nil => intro _; rfl
  | cons c cs ih =>
      intro hsub
      have hnp : ¬ PreP p (c :: cs) := by
        rintro ⟨t, ht⟩
        exact hsub ⟨[], t, by simpa using ht⟩
      rw [replaceAll_neg r (by tauto)]
      rw [ih (by rintro ⟨u, v, rfl⟩; exact hsub ⟨c :: u, v, rfl⟩)]

theorem mem_replaceAll {p r : List Char} {a : Char} :
    ∀ n : Nat, ∀ s : List Char, s.length ≤ n →
      a ∈ replaceAll p r s → a ∈ s ∨ a ∈ r := by
  intro n
  induction n with
  | zero =>
      intro s hs
      have : s = [] := List.length_eq_zero.mp (Nat.le_zero.mp hs)
      subst this
      intro h
      exact absurd h (by simp [replaceAll_nil])
  | succ n ih =>
      intro s hs hmem
      cases s with
      | nil => exact absurd hmem (by simp [replaceAll_nil])
      | cons c cs =>
          by_cases hcond : p ≠ [] ∧ PreP p (c :: cs)
          · rw [replaceAll_pos r hcond.1 hcond.2] at hmem
            rcases List.mem_append.mp hmem with hr | hrec
            · exact Or.inr hr
            · have hlen : (List.drop (p.length - 1) cs).length ≤ n := by
                have := Nat.le_of_succ_le_succ hs
                simp only [List.length_drop]
                omega
              rcases ih _ hlen hrec with hin | hr
              · exact Or.inl (List.mem_cons_of_mem c (List.drop_subset _ _ hin))
              · exact Or.inr hr
          · rw [replaceAll_neg r hcond] at hmem
            rcases List.mem_cons.mp hmem with rfl | hrec
            · exact Or.inl (List.mem_cons_self _ _)
            · rcases ih cs (Nat.le_of_succ_le_succ hs) hrec with hin | hr
              · exact Or.inl (List.mem_cons_of_mem c hin)
              · exact Or.inr hr

/-- Replacing the single-character pattern `[c]` eliminates every
occurrence of `c`, provided the replacement does not contain `c`. -/
theorem not_mem_replaceAll_single {c : Char} {r : List Char} (hc : c ∉ r) :
    ∀ s : List Char, c ∉ replaceAll [c] r s := by
  intro s
  induction s with
  | nil => simp [replaceAll_nil]
  | cons d ds ih =>
      by_cases hd : d = c
      · subst hd
        rw [replaceAll_pos r (by simp) ⟨ds, rfl⟩]
        simp only [List.length_cons, List.length_nil, Nat.zero_add, Nat.sub_self, List.drop_zero]
        intro hmem
        rcases List.mem_append.mp hmem with h | h
        · exact hc h
        · exact ih h
      · rw [replaceAll_neg r (by rintro ⟨-, t, ht⟩; exact hd (List.cons_eq_cons.mp ht).1)]
        intro hmem
        rcases List.mem_cons.mp hmem with rfl | h
        · exact hd rfl
        · exact ih h

/-- Characters neither in the subject nor in the replacement do not appear
in the output of a replacement. -/
theorem not_mem_replaceAll {p r : List Char} {a : Char} (hs : a ∉ s) (hr : a ∉ r) :
    a ∉ replaceAll p r s := by
  intro hmem
  rcases mem_replaceAll s.length s (Nat.le_refl _) hmem with h | h
  · exact hs h
  · exact hr h

/-- A global replacement distributes over a separator character that does
not occur in the pattern: no occurrence of the pattern can straddle the
separator. -/
theorem replaceAll_append_sep {p : List Char} (r : List Char) {c : Char} (hc : c ∉ p) :
    ∀ n : Nat, ∀ a : List Char, a.length ≤ n → ∀ b : List Char,
      replaceAll p r (a ++ c :: b) = replaceAll p r a ++ c :: replaceAll p r b := by
  intro n
  induction n with
  | zero =>
      intro a ha b
      have : a = [] := List.length_eq_zero.mp (Nat.le_zero.mp ha)
      subst this
      have hnp : ¬(p ≠ [] ∧ PreP p (c :: b)) := by
        rintro ⟨hne, t, ht⟩
        cases p with
        | nil => exact hne rfl
        | cons q qs =>
            rcases List.cons_eq_cons.mp ht with ⟨rfl, -⟩
            exact hc (List.mem_cons_self _ _)
      rw [List.nil_append, replaceAll_neg r hnp, replaceAll_nil, List.nil_append]
  | succ n ih =>
      intro a ha b
      cases a with
      | nil =>
          have hnp : ¬(p ≠ [] ∧ PreP p (c :: b)) := by
            rintro ⟨hne, t, ht⟩
            cases p with
            | nil => exact hne rfl
            | cons q qs =>
                rcases List.cons_eq_cons.mp ht with ⟨rfl, -⟩
                exact hc (List.mem_cons_self _ _)
          rw [List.nil_append, replaceAll_neg r hnp, replaceAll_nil, List.nil_append]
      | cons x a' =>
          have ha' : a'.length ≤ n := by simp at ha; omega
          by_cases hcond : p ≠ [] ∧ PreP p (x :: a')
          · obtain ⟨hne, t, ht⟩ := hcond
            have hlenp : p.length ≤ a'.length + 1 := by
              have := congrArg List.length ht
              simp [List.length_append] at this
              omega
            have hp2 : PreP p (x :: (a' ++ c :: b)) :=
              ⟨t ++ c :: b, by rw [← List.cons_append, ht, List.append_assoc]⟩
            show replaceAll p r (x :: (a' ++ c :: b)) =
              replaceAll p r (x :: a') ++ c :: replaceAll p r b
            rw [replaceAll_pos r hne hp2, replaceAll_pos r hne ⟨t, ht⟩]
            have hdrop : List.drop (p.length - 1) (a' ++ c :: b) =
                List.drop (p.length - 1) a' ++ c :: b :=
              List.drop_append_of_le_length (by omega)
            rw [hdrop]
            rw [ih (List.drop (p.length - 1) a')
              (by simp only [List.length_drop]; omega) b]
            rw [List.append_assoc]
          · have hcond2 : ¬(p ≠ [] ∧ PreP p (x :: (a' ++ c :: b))) := by
              rintro ⟨hne, t, ht⟩
              have htA : (x :: a') ++ (c :: b) = p ++ t := by
                rw [List.cons_append]; exact ht
              by_cases hlen : p.length ≤ (x :: a').length
              · have h3 : List.take p.length (x :: a') = p := by
                  have h4 := congrArg (List.take p.length) htA
                  rwa [List.take_append_of_le_length hlen, List.take_left' rfl] at h4
                refine hcond ⟨hne, List.drop p.length (x :: a'), ?_⟩
                conv_lhs => rw [← List.take_append_drop p.length (x :: a'), h3]
              · have hlt : (x :: a').length < p.length := by omega
                have h5 := congrArg (List.drop (x :: a').length) htA
                rw [List.drop_left, List.drop_append_of_le_length (Nat.le_of_lt hlt)] at h5
                apply hc
                cases hdp : List.drop (x :: a').length p with
                | nil =>
                    have h6 : p.length - (x :: a').length = 0 := by
                      have h7 := congrArg List.length hdp
                      simpa [List.length_drop] using h7
                    omega
                | cons y ys =>
                    rw [hdp] at h5
                    rcases List.cons_eq_cons.mp h5 with ⟨rfl, -⟩
                    exact List.drop_subset _ _ (hdp ▸ List.mem_cons_self _ _)
            show replaceAll p r (x :: (a' ++ c :: b)) =
              replaceAll p r (x :: a') ++ c :: replaceAll p r b
            rw [replaceAll_neg r hcond2, replaceAll_neg r hcond]
            rw [ih a' ha' b]
            rfl

theorem applyTable_cons (kv : List Char × List Char)
    (table : List (List Char × List Char)) (s : List Char) :
    applyTable (kv :: table) s = applyTable table (replaceAll kv.1 kv.2 s) := rfl

theorem applyTable_id {s : List Char} :
    ∀ table : List (List Char × List Char),
      (∀ kv ∈ table, ¬ SubP kv.1 s) → applyTable table s = s := by
  intro table
  induction table with
  | nil => intro _; rfl
  | cons kv t ih =>
      intro h
      rw [applyTable_cons, replaceAll_not_sub kv.2 s (h kv (List.mem_cons_self _ _))]
      exact ih (fun kv' hkv' => h kv' (List.mem_cons_of_mem _ hkv'))

theorem applyTable_append_sep {c : Char} {table : List (List Char × List Char)}
    (h : ∀ kv ∈ table, c ∉ kv.1) (a b : List Char) :
    applyTable table (a ++ c :: b) = applyTable table a ++ c :: applyTable table b := by
  induction table generalizing a b with
  | nil => rfl
  | cons kv t ih =>
      rw [applyTable_cons, applyTable_cons, applyTable_cons]
      rw [replaceAll_append_sep kv.2 (h kv (List.mem_cons_self _ _)) a.length a
        (Nat.le_refl _) b]
      exact ih (fun kv' hkv' => h kv' (List.mem_cons_of_mem _ hkv')) _ _

theorem applyTable_nil_input (table : List (List Char × List Char)) :
    applyTable table [] = [] := by
  induction table with
  | nil => rfl
  | cons kv t ih => rw [applyTable_cons, replaceAll_nil]; exact ih

/-- The head-anchored offset test, declaratively. -/
theorem offsetAt_iff (s : List Char) :
    offsetAt s = true ↔
      ∃ (sgn d1 d2 d3 d4 : Char) (v : List Char),
        (sgn = '+' ∨ sgn = '-') ∧
        (d1.isDigit ∧ d2.isDigit ∧ d3.isDigit ∧ d4.isDigit) ∧
        s = ' ' :: sgn :: d1 :: d2 :: d3 :: d4 :: v := by
  constructor
  · intro h
    match s, h with
    | c0 :: c1 :: c2 :: c3 :: c4 :: c5 :: rest, h => ?_
    simp only [offsetAt, Bool.and_eq_true, Bool.or_eq_true, decide_eq_true_eq] at h
    obtain ⟨⟨⟨⟨⟨rfl, hsgn⟩, h2⟩, h3⟩, h4⟩, h5⟩ := h
    exact ⟨c1, c2, c3, c4, c5, rest, hsgn, ⟨h2, h3, h4, h5⟩, rfl⟩
  · rintro ⟨sgn, d1, d2, d3, d4, v, hsgn, ⟨h1, h2, h3, h4⟩, rfl⟩
    rcases hsgn with rfl | rfl <;> simp [offsetAt, h1, h2, h3, h4]

/-- The offset search of the source, declaratively: it fires exactly on
strings containing a space-anchored signed 4-digit run. -/
theorem hasTzOffset_iff : ∀ s : List Char, hasTzOffset s = true ↔ SpaceOffset s
  | [] => by
      simp only [hasTzOffset, SpaceOffset, Bool.false_eq_true, false_iff]
      rintro ⟨u, sgn, d1, d2, d3, d4, v, -, -, hu⟩
      exact absurd hu.symm (by simp)
  | c :: cs => by
      simp only [hasTzOffset, Bool.or_eq_true, offsetAt_iff, hasTzOffset_iff cs]
      constructor
      · rintro (⟨sgn, d1, d2, d3, d4, v, hsgn, hd, heq⟩ |
          ⟨u, sgn, d1, d2, d3, d4, v, hsgn, hd, rfl⟩)
        · exact ⟨[], sgn, d1, d2, d3, d4, v, hsgn, hd, by simpa using heq⟩
        · exact ⟨c :: u, sgn, d1, d2, d3, d4, v, hsgn, hd, rfl⟩
      · rintro ⟨u, sgn, d1, d2, d3, d4, v, hsgn, hd, hu⟩
        cases u with
        | nil =>
            exact Or.inl ⟨sgn, d1, d2, d3, d4, v, hsgn, hd, by simpa using hu⟩
        | cons x u' =>
            rcases List.cons_eq_cons.mp hu with ⟨rfl, h⟩
            exact Or.inr ⟨u', sgn, d1, d2, d3, d4, v, hsgn, hd, h⟩

/-- Acceptance characterization of the zone guard: `is_zone_free` returns
`True` exactly when the input has no space-anchored signed 4-digit run and
contains no deny-listed abbreviation. -/
theorem is_zone_free_ok_iff (s : List Char) :
    is_zone_free s = .ok true ↔
      ¬ SpaceOffset s ∧ ∀ tz ∈ invalid_timezones, ¬ SubP tz s := by
  unfold is_zone_free
  by_cases hoff : hasTzOffset s
  · rw [if_pos hoff]
    constructor
    · intro h; exact Except.noConfusion h
    · rintro ⟨hno, -⟩; exact absurd ((hasTzOffset_iff s).mp hoff) hno
  · rw [if_neg hoff]
    have hnospace : ¬ SpaceOffset s := fun h => hoff ((hasTzOffset_iff s).mpr h)
    cases hfind : invalid_timezones.find? (fun tz => isSub tz s) with
    | some tz =>
        constructor
        · intro h; exact Except.noConfusion h
        · rintro ⟨-, hall⟩
          have htz := List.find?_some hfind
          exact absurd ((isSub_iff tz s).mp htz)
            (hall tz (List.mem_of_find?_eq_some hfind))
    | none =>
        simp only [true_iff]
        refine ⟨hnospace, fun tz htz hsub => ?_⟩
        have := List.find?_eq_none.mp hfind tz htz
        exact this (by rw [(isSub_iff tz s).mpr hsub])

/-- The offset rejection of the zone guard fires exactly on the
space-anchored pattern. -/
theorem is_zone_free_offset_iff (s : List Char) :
    is_zone_free s = .error .offsetPattern ↔ SpaceOffset s := by
  unfold is_zone_free
  by_cases hoff : hasTzOffset s
  · rw [if_pos hoff]
    exact ⟨fun _ => (hasTzOffset_iff s).mp hoff, fun _ => rfl⟩
  · rw [if_neg hoff]
    have hnospace : ¬ SpaceOffset s := fun h => hoff ((hasTzOffset_iff s).mpr h)
    cases hfind : invalid_timezones.find? (fun tz => isSub tz s) with
    | some tz =>
        constructor
        · intro h; exact ZoneError.noConfusion (Except.error.inj h)
        · intro h; exact absurd h hnospace
    | none =>
        constructor
        · intro h; exact Except.noConfusion h
        · intro h; exact absurd h hnospace

theorem firstMatch_nil {p : List Char} (hp : p ≠ []) : firstMatch p [] = none := by
  cases p with
  | nil => exact absurd rfl hp
  | cons a as => rfl

theorem firstMatch_pos {p : List Char} {s : List Char} (h : isPre p s = true) :
    firstMatch p s = some 0 := by
  cases s with
  | nil => show (if isPre p [] then some 0 else none) = some 0; rw [if_pos h]
  | cons c cs =>
      show (if isPre p (c :: cs) then some 0 else (firstMatch p cs).map (fun i => i + 1)) =
        some 0
      rw [if_pos h]

theorem firstMatch_cons_neg {p : List Char} {c : Char} {cs : List Char}
    (h : isPre p (c :: cs) = false) :
    firstMatch p (c :: cs) = (firstMatch p cs).map (fun i => i + 1) := by
  show (if isPre p (c :: cs) then some 0 else (firstMatch p cs).map (fun i => i + 1)) = _
  rw [if_neg (by simp [h])]

theorem specReplaceAux_fuel {p : List Char} (r : List Char) (hp : p ≠ []) :
    ∀ f1 : Nat, ∀ s : List Char, s.length ≤ f1 → ∀ f2 : Nat, s.length ≤ f2 →
      specReplaceAux p r f1 s = specReplaceAux p r f2 s := by
  have hlen1 : 1 ≤ p.length := by
    cases p with
    | nil => exact absurd rfl hp
    | cons a as => simp
  intro f1
  induction f1 with
  | zero =>
      intro s hs f2 _
      have : s = [] := List.length_eq_zero.mp (Nat.le_zero.mp hs)
      subst this
      cases f2 with
      | zero => rfl
      | succ m => show [] = specReplaceAux p r (m + 1) []; rw [specReplaceAux,
          firstMatch_nil hp]
  | succ n ih =>
      intro s hs f2 h2
      cases f2 with
      | zero =>
          have : s = [] := List.length_eq_zero.mp (Nat.le_zero.mp h2)
          subst this
          show specReplaceAux p r (n + 1) [] = []
          rw [specReplaceAux, firstMatch_nil hp]
      | succ m =>
          rw [specReplaceAux, specReplaceAux]
          cases hfm : firstMatch p s with
          | none => rfl
          | some i =>
              have hdroplen : (s.drop (i + p.length)).length ≤ n ∧
                  (s.drop (i + p.length)).length ≤ m := by
                constructor <;> (simp only [List.length_drop]; omega)
              show s.take i ++ r ++ specReplaceAux p r n (s.drop (i + p.length)) =
                s.take i ++ r ++ specReplaceAux p r m (s.drop (i + p.length))
              rw [ih _ hdroplen.1 m hdroplen.2]

theorem specReplace_unfold {p : List Char} (r : List Char) (hp : p ≠ []) (s : List Char) :
    specReplace p r s =
      match firstMatch p s with
      | none => s
      | some i => s.take i ++ r ++ specReplace p r (s.drop (i + p.length)) := by
  have hlen1 : 1 ≤ p.length := by
    cases p with
    | nil => exact absurd rfl hp
    | cons a as => simp
  cases s with
  | nil => rw [firstMatch_nil hp]; rfl
  | cons c cs =>
      show specReplaceAux p r (cs.length + 1) (c :: cs) = _
      rw [specReplaceAux]
      cases hfm : firstMatch p (c :: cs) with
      | none => rfl
      | some i =>
          have hfa : specReplaceAux p r cs.length ((c :: cs).drop (i + p.length)) =
              specReplace p r ((c :: cs).drop (i + p.length)) := by
            apply specReplaceAux_fuel r hp
            · simp only [List.length_drop, List.length_cons]; omega
            · exact Nat.le_refl _
          show (c :: cs).take i ++ r ++
              specReplaceAux p r cs.length ((c :: cs).drop (i + p.length)) =
            (c :: cs).take i ++ r ++ specReplace p r ((c :: cs).drop (i + p.length))
          rw [hfa]

theorem replaceAll_eq_specReplace {p : List Char} (r : List Char) (hp : p ≠ []) :
    ∀ n : Nat, ∀ s : List Char, s.length ≤ n → replaceAll p r s = specReplace p r s := by
  have hlen1 : 1 ≤ p.length := by
    cases p with
    | nil => exact absurd rfl hp
    | cons a as => simp
  intro n
  induction n with
  | zero =>
      intro s hs
      have : s = [] := List.length_eq_zero.mp (Nat.le_zero.mp hs)
      subst this
      rfl
  | succ n ih =>
      intro s hs
      cases s with
      | nil => rfl
      | cons c cs =>
          have hs' : cs.length ≤ n := by simp at hs; omega
          by_cases hpre : isPre p (c :: cs) = true
          · rw [replaceAll_pos r hp ((isPre_iff p _).mp hpre)]
            rw [specReplace_unfold r hp, firstMatch_pos hpre]
            simp only [List.take_zero, List.nil_append, Nat.zero_add]
            have hdrop : (c :: cs).drop p.length = cs.drop (p.length - 1) := by
              have hstep : p.length = (p.length - 1) + 1 := by omega
              conv_lhs => rw [hstep]
              rw [List.drop_succ_cons]
            rw [hdrop]
            rw [ih _ (by simp only [List.length_drop]; omega)]
          · have hpre' : isPre p (c :: cs) = false := by
              cases hb : isPre p (c :: cs) with
              | true => exact absurd hb hpre
              | false => rfl
            rw [replaceAll_neg r (fun hand =>
              hpre ((isPre_iff p _).mpr hand.2))]
            rw [specReplace_unfold r hp, firstMatch_cons_neg hpre']
            cases hfm : firstMatch p cs with
            | none =>
                simp only [Option.map_none']
                have hid : specReplace p r cs = cs := by
                  rw [specReplace_unfold r hp, hfm]
                rw [ih cs hs', hid]
            | some i =>
                simp only [Option.map_some']
                show c :: replaceAll p r cs =
                  (c :: cs).take (i + 1) ++ r ++
                    specReplace p r ((c :: cs).drop (i + 1 + p.length))
                rw [ih cs hs']
                have hsr : specReplace p r cs =
                    cs.take i ++ r ++ specReplace p r (cs.drop (i + p.length)) := by
                  rw [specReplace_unfold r hp, hfm]
                rw [hsr]
                have h1 : (c :: cs).take (i + 1) = c :: cs.take i := List.take_succ_cons
                have h2 : (c :: cs).drop (i + 1 + p.length) = cs.drop (i + p.length) := by
                  have h3 : i + 1 + p.length = (i + p.length) + 1 := by omega
                  rw [h3, List.drop_succ_cons]
                rw [h1, h2]
                rfl

theorem specSnap_cons (kv : List Char × List Char)
    (table : List (List Char × List Char)) (s : List Char) :
    specSnap (kv :: table) s = specSnap table (specReplace kv.1 kv.2 s) := rfl

/-- Every pattern of the default table is nonempty. -/
theorem table_keys_nonempty : ∀ kv ∈ DATETIME_LOOKUP_TABLE, kv.1 ≠ [] := by decide

theorem applyTable_eq_specSnap :
    ∀ table : List (List Char × List Char), (∀ kv ∈ table, kv.1 ≠ []) →
      ∀ s : List Char, applyTable table s = specSnap table s := by
  intro table
  induction table with
  | nil => intro _ s; rfl
  | cons kv t ih =>
      intro h s
      rw [applyTable_cons, specSnap_cons]
      rw [replaceAll_eq_specReplace kv.2 (h kv (List.mem_cons_self _ _)) s.length s
        (Nat.le_refl _)]
      exact ih (fun kv' hkv' => h kv' (List.mem_cons_of_mem _ hkv')) _

theorem snap_fmt_ok_of_zone_free {s : List Char} (h : is_zone_free s = .ok true) :
    snap_fmt s = .ok (applyTable DATETIME_LOOKUP_TABLE s) := by
  unfold snap_fmt snap_fmt_with
  rw [h]
  rfl

theorem snap_fmt_error_of_zone_error {s : List Char} {e : ZoneError}
    (h : is_zone_free s = .error e) : snap_fmt s = .error e := by
  unfold snap_fmt snap_fmt_with
  rw [h]

theorem CompleteB_cons_not_pct {c : Char} (h : c ≠ '%') (cs : List Char) :
    CompleteB (c :: cs) = CompleteB cs := by
  conv_lhs => unfold CompleteB
  rw [if_neg h]

theorem CompleteB_pct_cons (d : Char) (rest : List Char) :
    CompleteB ('%' :: d :: rest) = CompleteB rest := by
  simp [CompleteB]

theorem renderCanonical_cons_not_pct {c : Char} (h : c ≠ '%') (cs : List Char) :
    renderCanonical (c :: cs) = c :: renderCanonical cs := by
  conv_lhs => unfold renderCanonical
  rw [if_neg h]

theorem renderCanonical_pct_cons (d : Char) (rest : List Char) :
    renderCanonical ('%' :: d :: rest) = directiveValue d ++ renderCanonical rest := by
  simp [renderCanonical]

/-- Rendering distributes over concatenation when the first part is
percent-complete. -/
theorem renderCanonical_append :
    ∀ n : Nat, ∀ a : List Char, a.length ≤ n → CompleteB a = true → ∀ b : List Char,
      renderCanonical (a ++ b) = renderCanonical a ++ renderCanonical b := by
  intro n
  induction n with
  | zero =>
      intro a ha _ b
      have : a = [] := List.length_eq_zero.mp (Nat.le_zero.mp ha)
      subst this
      rfl
  | succ n ih =>
      intro a ha hcomp b
      cases a with
      | nil => rfl
      | cons c a' =>
          have ha' : a'.length ≤ n := by simp at ha; omega
          by_cases hc : c = '%'
          · subst hc
            cases a' with
            | nil => exact absurd hcomp (by simp [CompleteB])
            | cons d rest =>
                have hrest : rest.length ≤ n := by
                  have h8 := ha'
                  simp at h8
                  omega
                rw [show ('%' :: d :: rest) ++ b = '%' :: d :: (rest ++ b) from rfl]
                rw [renderCanonical_pct_cons, renderCanonical_pct_cons]
                rw [ih rest hrest (by rwa [CompleteB_pct_cons] at hcomp) b]
                rw [List.append_assoc]
          · rw [show (c :: a') ++ b = c :: (a' ++ b) from rfl]
            rw [renderCanonical_cons_not_pct hc, renderCanonical_cons_not_pct hc]
            rw [ih a' ha' (by rwa [CompleteB_cons_not_pct hc] at hcomp) b]
            rfl

/-- No safe separator occurs in any pattern of the default table. -/
theorem seps_not_in_patterns :
    ∀ c ∈ safeSeps, ∀ kv ∈ DATETIME_LOOKUP_TABLE, c ∉ kv.1 := by decide

theorem seps_not_pct : ∀ c ∈ safeSeps, c ≠ '%' := by decide

/-- Each canonical-case fragment, taken alone through the engine, renders
back to itself at the Canonical Instant. -/
theorem frag_roundtrip :
    ∀ f ∈ canonicalFragments,
      renderCanonical (applyTable DATETIME_LOOKUP_TABLE f) = f := by decide

/-- Each canonical-case fragment's engine output is percent-complete. -/
theorem frag_complete :
    ∀ f ∈ canonicalFragments,
      CompleteB (applyTable DATETIME_LOOKUP_TABLE f) = true := by decide

theorem sepSpaced_tail {t : ExTok} {ts : List ExTok} (h : sepSpaced (t :: ts) = true) :
    sepSpaced ts = true := by
  cases ts with
  | nil => rfl
  | cons b rest =>
      have := h
      rw [show sepSpaced (t :: b :: rest) =
        (!(isFragTok t && isFragTok b) && sepSpaced (b :: rest)) from rfl] at this
      exact (Bool.and_eq_true_iff.mp this).2

theorem goodTok_frag {f : List Char} (h : goodTok (.frag f) = true) :
    f ∈ canonicalFragments := of_decide_eq_true h

theorem goodTok_sep {c : Char} (h : goodTok (.sep c) = true) : c ∈ safeSeps :=
  of_decide_eq_true h

/-- Core round-trip lemma: on any separated composition of canonical-case
fragments and safe separators, rendering the engine's output at the
Canonical Instant reproduces the input. -/
theorem roundtrip_toks :
    ∀ n : Nat, ∀ ts : List ExTok, ts.length ≤ n →
      (∀ t ∈ ts, goodTok t = true) → sepSpaced ts = true →
      renderCanonical (applyTable DATETIME_LOOKUP_TABLE (flattenToks ts)) =
        flattenToks ts := by
  intro n
  induction n with
  | zero =>
      intro ts hts _ _
      have : ts = [] := List.length_eq_zero.mp (Nat.le_zero.mp hts)
      subst this
      rw [show flattenToks [] = [] from rfl, applyTable_nil_input]
      rfl
  | succ n ih =>
      intro ts hts hgood hspace
      cases ts with
      | nil =>
          rw [show flattenToks [] = [] from rfl, applyTable_nil_input]
          rfl
      | cons t rest =>
          have hrestlen : rest.length ≤ n := by simp at hts; omega
          cases t with
          | sep c =>
              have hc : c ∈ safeSeps := goodTok_sep (hgood _ (List.mem_cons_self _ _))
              have hflat : flattenToks (ExTok.sep c :: rest) =
                  [] ++ c :: flattenToks rest := rfl
              rw [hflat]
              rw [applyTable_append_sep (fun kv hkv => seps_not_in_patterns c hc kv hkv)
                [] (flattenToks rest)]
              rw [applyTable_nil_input, List.nil_append, List.nil_append]
              rw [renderCanonical_cons_not_pct (seps_not_pct c hc)]
              rw [ih rest hrestlen (fun t' ht' => hgood t' (List.mem_cons_of_mem _ ht'))
                (sepSpaced_tail hspace)]
          | frag f =>
              have hf : f ∈ canonicalFragments :=
                goodTok_frag (hgood _ (List.mem_cons_self _ _))
              cases rest with
              | nil =>
                  rw [show flattenToks [ExTok.frag f] = f ++ [] from rfl, List.append_nil]
                  exact frag_roundtrip f hf
              | cons t2 rest' =>
                  have hsep2 : isFragTok t2 = false := by
                    have := hspace
                    rw [show sepSpaced (ExTok.frag f :: t2 :: rest') =
                      (!(isFragTok (ExTok.frag f) && isFragTok t2) &&
                        sepSpaced (t2 :: rest')) from rfl] at this
                    have h1 := (Bool.and_eq_true_iff.mp this).1
                    rw [show isFragTok (ExTok.frag f) = true from rfl] at h1
                    simpa using h1
                  cases t2 with
                  | frag g => exact absurd hsep2 (by simp [isFragTok])
                  | sep c =>
                      have hc : c ∈ safeSeps := goodTok_sep
                        (hgood _ (List.mem_cons_of_mem _ (List.mem_cons_self _ _)))
                      have hflat : flattenToks (ExTok.frag f :: ExTok.sep c :: rest') =
                          f ++ c :: flattenToks rest' := rfl
                      rw [hflat]
                      rw [applyTable_append_sep
                        (fun kv hkv => seps_not_in_patterns c hc kv hkv) f
                        (flattenToks rest')]
                      rw [renderCanonical_append
                        (applyTable DATETIME_LOOKUP_TABLE f).length _ (Nat.le_refl _)
                        (frag_complete f hf)]
                      rw [frag_roundtrip f hf]
                      rw [renderCanonical_cons_not_pct (seps_not_pct c hc)]
                      have hrest'len : rest'.length ≤ n := by
                        simp at hts; omega
                      rw [ih rest' hrest'len
                        (fun t' ht' => hgood t'
                          (List.mem_cons_of_mem _ (List.mem_cons_of_mem _ ht')))
                        (sepSpaced_tail (sepSpaced_tail hspace))]

instance decSubP (p s : List Char) : Decidable (SubP p s) :=
  decidable_of_iff _ (isSub_iff p s)

instance decPreP (p s : List Char) : Decidable (PreP p s) :=
  decidable_of_iff _ (isPre_iff p s)

instance decSpaceOffset (s : List Char) : Decidable (SpaceOffset s) :=
  decidable_of_iff _ (hasTzOffset_iff s)

/-- The default table is its first 52 entries followed by the two
single-character entries for `0` and `7`. -/
theorem table_split :
    DATETIME_LOOKUP_TABLE =
      DATETIME_LOOKUP_TABLE.take 52 ++ [(str "0", str "%w"), (str "7", str "%u")] := by
  rfl

theorem applyTable_append (t1 t2 : List (List Char × List Char)) (s : List Char) :
    applyTable (t1 ++ t2) s = applyTable t2 (applyTable t1 s) :=
  List.foldl_append _ _ _ _

theorem snap_fmt_ok_inv {s out : List Char} (h : snap_fmt s = .ok out) :
    out = applyTable DATETIME_LOOKUP_TABLE s := by
  unfold snap_fmt snap_fmt_with at h
  cases hz : is_zone_free s with
  | error e => rw [hz] at h; exact Except.noConfusion h
  | ok b => rw [hz] at h; exact (Except.ok.inj h).symm

/-- The engine output never contains the characters replaced by the final
two table entries. -/
theorem applyTable_no_zero_seven (s : List Char) :
    '0' ∉ applyTable DATETIME_LOOKUP_TABLE s ∧
    '7' ∉ applyTable DATETIME_LOOKUP_TABLE s := by
  rw [table_split, applyTable_append]
  generalize applyTable (DATETIME_LOOKUP_TABLE.take 52) s = X
  show '0' ∉ replaceAll (str "7") (str "%u") (replaceAll (str "0") (str "%w") X) ∧
       '7' ∉ replaceAll (str "7") (str "%u") (replaceAll (str "0") (str "%w") X)
  have h0 : '0' ∉ replaceAll (str "0") (str "%w") X :=
    not_mem_replaceAll_single (by decide) X
  constructor
  · exact not_mem_replaceAll h0 (by decide)
  · exact not_mem_replaceAll_single (by decide) _

/-- Shape of the zone guard's result: it is `ok true` or some error. -/
theorem is_zone_free_shape (s : List Char) :
    is_zone_free s = .ok true ∨ ∃ e, is_zone_free s = .error e := by
  unfold is_zone_free
  by_cases hoff : hasTzOffset s
  · rw [if_pos hoff]; exact Or.inr ⟨_, rfl⟩
  · rw [if_neg hoff]
    cases invalid_timezones.find? (fun tz => isSub tz s) with
    | some tz => exact Or.inr ⟨_, rfl⟩
    | none => exact Or.inl rfl

/-- Claim C1 (counterexample): the unrestricted round-trip property fails.
The string "AM" is accepted by the zone guard, the engine maps it to "%p",
but the Canonical Instant renders "%p" as "PM", not "AM". -/
theorem C1_counterexample :
    is_zone_free (str "AM") = .ok true ∧
    snap_fmt (str "AM") = .ok (str "%p") ∧
    renderCanonical (str "%p") ≠ str "AM" := by decide

/-- Claim C1 (amended): for every example string accepted by `is_zone_free`
that is a concatenation of canonical-case fragments of the default table
and safe separator characters, with no two fragments adjacent, the engine
succeeds and rendering the Canonical Instant with its output reproduces
the input exactly. -/
theorem C1_roundtrip_amended (ts : List ExTok)
    (hgood : ∀ t ∈ ts, goodTok t = true) (hspace : sepSpaced ts = true)
    (hzf : is_zone_free (flattenToks ts) = .ok true) :
    snap_fmt (flattenToks ts) =
      .ok (applyTable DATETIME_LOOKUP_TABLE (flattenToks ts)) ∧
    renderCanonical (applyTable DATETIME_LOOKUP_TABLE (flattenToks ts)) =
      flattenToks ts :=
  ⟨snap_fmt_ok_of_zone_free hzf,
   roundtrip_toks ts.length ts (Nat.le_refl _) hgood hspace⟩

/-- Claim C1 (witness): the round trip at the composed example
"2004-10-31 13:12:11". -/
theorem C1_roundtrip_witness :
    snap_fmt (flattenToks
        [ExTok.frag (str "2004"), ExTok.sep '-', ExTok.frag (str "10"),
         ExTok.sep '-', ExTok.frag (str "31"), ExTok.sep ' ',
         ExTok.frag (str "13"), ExTok.sep ':', ExTok.frag (str "12"),
         ExTok.sep ':', ExTok.frag (str "11")]) =
      .ok (applyTable DATETIME_LOOKUP_TABLE (flattenToks
        [ExTok.frag (str "2004"), ExTok.sep '-', ExTok.frag (str "10"),
         ExTok.sep '-', ExTok.frag (str "31"), ExTok.sep ' ',
         ExTok.frag (str "13"), ExTok.sep ':', ExTok.frag (str "12"),
         ExTok.sep ':', ExTok.frag (str "11")])) ∧
    renderCanonical (applyTable DATETIME_LOOKUP_TABLE (flattenToks
        [ExTok.frag (str "2004"), ExTok.sep '-', ExTok.frag (str "10"),
         ExTok.sep '-', ExTok.frag (str "31"), ExTok.sep ' ',
         ExTok.frag (str "13"), ExTok.sep ':', ExTok.frag (str "12"),
         ExTok.sep ':', ExTok.frag (str "11")])) =
      flattenToks
        [ExTok.frag (str "2004"), ExTok.sep '-', ExTok.frag (str "10"),
         ExTok.sep '-', ExTok.frag (str "31"), ExTok.sep ' ',
         ExTok.frag (str "13"), ExTok.sep ':', ExTok.frag (str "12"),
         ExTok.sep ':', ExTok.frag (str "11")] :=
  C1_roundtrip_amended _ (by decide) (by decide) (by decide)

/-- Claim C2 (counterexample): a signed 4-digit pattern without a
preceding space is accepted by `is_zone_free`, contradicting the claim that
every string containing a signed 4-digit pattern fails. -/
theorem C2_counterexample :
    SignedOffset (str "13:08-0930") ∧ is_zone_free (str "13:08-0930") = .ok true := by
  constructor
  · exact ⟨str "13:08", '-', '0', '9', '3', '0', [], Or.inr rfl,
      by decide, by decide⟩
  · decide

/-- Claim C2 (amended): `is_zone_free` succeeds exactly on strings that
contain neither a SPACE-anchored signed 4-digit pattern nor any
deny-listed abbreviation as a substring, and fails with an error on every
string containing either. -/
theorem C2_rejection_amended (s : List Char) :
    (is_zone_free s = .ok true ↔
      ¬ SpaceOffset s ∧ ∀ tz ∈ invalid_timezones, ¬ SubP tz s) ∧
    ((SpaceOffset s ∨ ∃ tz ∈ invalid_timezones, SubP tz s) →
      ∃ e, is_zone_free s = .error e) := by
  refine ⟨is_zone_free_ok_iff s, fun hbad => ?_⟩
  rcases is_zone_free_shape s with hok | herr
  · exfalso
    rcases (is_zone_free_ok_iff s).mp hok with ⟨hno, hall⟩
    rcases hbad with hsp | ⟨tz, htz, hsub⟩
    · exact hno hsp
    · exact hall tz htz hsub
  · exact herr

/-- Claim C2 (witness): the amended rejection at a space-anchored offset
and acceptance of an offset-free, abbreviation-free string. -/
theorem C2_rejection_witness :
    ∃ e, is_zone_free (str "a -1234") = .error e :=
  (C2_rejection_amended (str "a -1234")).2
    (Or.inl ⟨str "a", '-', '1', '2', '3', '4', [], Or.inr rfl, by decide, by decide⟩)

/-- Claim C3: on every zone-free input the engine succeeds and computes
exactly the spec's algorithm — each table pair in table order performs a
global non-overlapping literal replacement over the entire current state,
with replacements accumulating. -/
theorem C3_snap_algorithm (s : List Char) (hzf : is_zone_free s = .ok true) :
    snap_fmt s = .ok (specSnap DATETIME_LOOKUP_TABLE s) := by
  rw [snap_fmt_ok_of_zone_free hzf,
    applyTable_eq_specSnap DATETIME_LOOKUP_TABLE table_keys_nonempty s]

/-- Claim C3 (witness): the engine agrees with the spec's algorithm at
"13:12". -/
theorem C3_snap_algorithm_witness :
    snap_fmt (str "13:12") = .ok (specSnap DATETIME_LOOKUP_TABLE (str "13:12")) :=
  C3_snap_algorithm (str "13:12") (by decide)

/-- Claim C4: the engine maps "2004-10-31 13:12:11" to
"%Y-%m-%d %H:%M:%S", and rendering the Canonical Instant with that
directive string reproduces the input. -/
theorem C4_iso_scenario :
    snap_fmt (str "2004-10-31 13:12:11") = .ok (str "%Y-%m-%d %H:%M:%S") ∧
    renderCanonical (str "%Y-%m-%d %H:%M:%S") = str "2004-10-31 13:12:11" := by
  decide

/-- Claim C5: a zone-free input containing no table pattern as a substring
passes through the engine unchanged. -/
theorem C5_passthrough (s : List Char) (hzf : is_zone_free s = .ok true)
    (hnone : ∀ kv ∈ DATETIME_LOOKUP_TABLE, ¬ SubP kv.1 s) :
    snap_fmt s = .ok s := by
  rw [snap_fmt_ok_of_zone_free hzf, applyTable_id DATETIME_LOOKUP_TABLE hnone]

/-- Claim C5 (witness): "Canonical datetime" is returned unchanged. -/
theorem C5_passthrough_witness :
    snap_fmt (str "Canonical datetime") = .ok (str "Canonical datetime") :=
  C5_passthrough (str "Canonical datetime") (by decide) (by decide)

/-- Claim C6 (counterexample): `is_zone_free` offers no lenient variant: a
sign immediately followed by four digits but not preceded by a space is
accepted, so no selectable behavior rejects it. -/
theorem C6_counterexample :
    SignedOffset (str "x+1234") ∧ is_zone_free (str "x+1234") = .ok true := by
  constructor
  · exact ⟨str "x", '+', '1', '2', '3', '4', [], Or.inl rfl, by decide, by decide⟩
  · decide

/-- Claim C6 (amended): `is_zone_free` takes only the string and
implements only the space-anchored variant: its offset rejection fires
exactly when a space is followed by a sign and four digits. -/
theorem C6_space_anchored_amended (s : List Char) :
    is_zone_free s = .error .offsetPattern ↔ SpaceOffset s :=
  is_zone_free_offset_iff s

/-- Claim C7: when the zone guard rejects, the engine never runs: the
guard's error is the whole result and no substituted output is produced. -/
theorem C7_fail_fast (s : List Char) (e : ZoneError)
    (h : is_zone_free s = .error e) : snap_fmt s = .error e :=
  snap_fmt_error_of_zone_error h

/-- Claim C7 (witness): a deny-listed abbreviation aborts the engine. -/
theorem C7_fail_fast_witness :
    snap_fmt (str "noon PST") = .error (.badAbbrev (str "PST")) :=
  C7_fail_fast (str "noon PST") (.badAbbrev (str "PST")) (by decide)

/-- Claim C8: the symbolic-placeholder input maps to "%Y-%m-%d", and the
placeholder entries alone (the first 24 table entries, checked before any
literal fragment entry) already produce that output. -/
theorem C8_placeholders :
    snap_fmt (str "{YEAR4}-{MONTH#}-{DAY#}") = .ok (str "%Y-%m-%d") ∧
    applyTable (DATETIME_LOOKUP_TABLE.take 24) (str "{YEAR4}-{MONTH#}-{DAY#}") =
      str "%Y-%m-%d" := by
  decide

/-- Claim C9: for every zone-free input the engine's output contains
neither the character 0 nor the character 7: the single-character patterns
"0" and "7" are the last two table entries and no directive value contains
either character. -/
theorem C9_no_zero_seven (s out : List Char) (h : snap_fmt s = .ok out) :
    '0' ∉ out ∧ '7' ∉ out := by
  rw [snap_fmt_ok_inv h]
  exact applyTable_no_zero_seven s

/-- Claim C9 (witness): the output for "2004-10" contains no 0 and no 7. -/
theorem C9_no_zero_seven_witness :
    '0' ∉ str "%Y-%m" ∧ '7' ∉ str "%Y-%m" :=
  C9_no_zero_seven (str "2004-10") (str "%Y-%m") (by decide)

/-- Claim C10: the deny-list check is case-sensitive: a string containing
a lowercase or mixed-case variant of a deny-listed abbreviation, but no
exact deny-list entry and no space-anchored offset, is accepted, and the
engine processes it like any other literal text. -/
theorem C10_case_sensitive (s : List Char)
    (hvariant : ∃ tz ∈ invalid_timezones, ∃ t : List Char,
      t ≠ tz ∧ t.map Char.toUpper = tz ∧ SubP t s)
    (hno : ¬ SpaceOffset s)
    (hup : ∀ tz ∈ invalid_timezones, ¬ SubP tz s) :
    is_zone_free s = .ok true ∧
    snap_fmt s = .ok (applyTable DATETIME_LOOKUP_TABLE s) := by
  have hok : is_zone_free s = .ok true := (is_zone_free_ok_iff s).mpr ⟨hno, hup⟩
  exact ⟨hok, snap_fmt_ok_of_zone_free hok⟩

/-- Claim C10 (witness): "pst" is accepted and processed as literal
text. -/
theorem C10_case_sensitive_witness :
    is_zone_free (str "pst") = .ok true ∧
    snap_fmt (str "pst") = .ok (applyTable DATETIME_LOOKUP_TABLE (str "pst")) :=
  C10_case_sensitive (str "pst")
    ⟨str "PST", by decide, str "pst", by decide, by decide, ⟨[], [], by decide⟩⟩
    (by decide) (by decide)

end D8fmt
